import Mathlib

/-!
Verification of the discrete choice model table (DCMTable) from
mlpack mixed_logit_dcm (dcm_table.h), as a shallow embedding.

Tables are column-oriented in the source; a table is modelled as a list of
its column vectors (the attribute table as a list of real vectors, the
decisions and num-alternatives tables as lists of integers, since the
source immediately casts their double entries to int).  Unchecked vector
indexing in the hot accessors is modelled with getD; the out-of-bounds
accesses Init can perform are modelled by an explicit outOfBounds error,
and the fatal validation exit is modelled by a sizeMismatch error.
-/

namespace MixedLogitDCM

/-- Model of arma dot: componentwise product summed. -/
def dot (x y : List ℝ) : ℝ := (List.zipWith (fun a b => a * b) x y).sum

/-- The largest finite double, the magnitude of the initial value of the
running maximum in choice_probabilities. -/
def dblMax : ℝ := 2 ^ 1024 - 2 ^ 971

/-- State of a DCMTable after Init: the three raw tables plus the derived
structures (cumulative offsets, shuffled person order, per-choice counts). -/
structure DCMTable where
  attribute_table_ : List (List ℝ)
  attribute_dimensions_ : List ℤ
  decisions_table_ : List ℤ
  num_alternatives_table_ : List ℤ
  cumulative_num_discrete_choices_ : List ℤ
  shuffled_indices_for_person_ : List ℕ
  num_people_per_discrete_choice_ : List ℕ

namespace DCMTable

/-- num_discrete_choices: entry of the num-alternatives table for a person. -/
def num_discrete_choices (t : DCMTable) (person_index : ℕ) : ℤ :=
  t.num_alternatives_table_.getD person_index 0

/-- total_num_discrete_choices: the size of num_people_per_discrete_choice_. -/
def total_num_discrete_choices (t : DCMTable) : ℕ :=
  t.num_people_per_discrete_choice_.length

/-- get_discrete_choice_index: entry of the (already decremented) decisions
table for a person. -/
def get_discrete_choice_index (t : DCMTable) (person_index : ℕ) : ℤ :=
  t.decisions_table_.getD person_index 0

/-- num_people: the size of the cumulative offsets vector. -/
def num_people (t : DCMTable) : ℕ :=
  t.cumulative_num_discrete_choices_.length

/-- num_people_per_discrete_choice accessor. -/
def num_people_per_discrete_choice (t : DCMTable) (discrete_choice_index : ℕ) : ℕ :=
  t.num_people_per_discrete_choice_.getD discrete_choice_index 0

/-- shuffled_indices_for_person accessor. -/
def shuffled_indices_for_person (t : DCMTable) (pos : ℕ) : ℕ :=
  t.shuffled_indices_for_person_.getD pos 0

/-- get_attribute_vector: row at cumulative offset of the person plus the
discrete choice index. -/
def get_attribute_vector (t : DCMTable) (person_index discrete_choice_index : ℕ) :
    List ℝ :=
  t.attribute_table_.getD
    ((t.cumulative_num_discrete_choices_.getD person_index 0).toNat +
      discrete_choice_index) []

/-- The dot products between beta and each attribute vector of the person
(first loop of choice_probabilities). -/
def dcmScores (t : DCMTable) (person_index : ℕ) (beta : List ℝ) : List ℝ :=
  (List.range (t.num_discrete_choices person_index).toNat).map
    (fun a => dot beta (t.get_attribute_vector person_index a))

/-- The running maximum dot product, started at the negated largest double. -/
def dcmMaxDot (t : DCMTable) (person_index : ℕ) (beta : List ℝ) : ℝ :=
  (t.dcmScores person_index beta).foldl max (-dblMax)

/-- The unnormalized probabilities (second loop of choice_probabilities). -/
noncomputable def dcmWeights (t : DCMTable) (person_index : ℕ) (beta : List ℝ) : List ℝ :=
  (t.dcmScores person_index beta).map
    (fun s => Real.exp (s - t.dcmMaxDot person_index beta + 1))

/-- choice_probabilities: unnormalized weights divided by their sum. -/
noncomputable def choice_probabilities (t : DCMTable) (person_index : ℕ) (beta : List ℝ) :
    List ℝ :=
  (t.dcmWeights person_index beta).map
    (fun w => w / (t.dcmWeights person_index beta).sum)

/-- choice_probability: the probability at the stored chosen index. -/
noncomputable def choice_probability (t : DCMTable) (person_index : ℕ) (beta : List ℝ) : ℝ :=
  (t.choice_probabilities person_index beta).getD
    (t.get_discrete_choice_index person_index).toNat 0

end DCMTable

/-- The cumulative-offset recurrence built by Init:
c 0 = 0 and c (i+1) = c i + numAlt i. -/
def cumRec (numAlt : List ℤ) : ℕ → ℤ
  | 0 => 0
  | i + 1 => cumRec numAlt i + numAlt.getD i 0

/-- std swap of the entries at positions i and j of a list. -/
def listSwap (l : List ℕ) (i j : ℕ) : List ℕ :=
  (l.set i (l.getD j 0)).set j (l.getD i 0)

/-- std random_shuffle: for i = 1 .. n-1, swap entry i with entry
rng i mod (i+1); rng is the random source, one outcome per function. -/
def randomShuffle (l : List ℕ) (rng : ℕ → ℕ) : List ℕ :=
  (List.range' 1 (l.length - 1)).foldl (fun acc i => listSwap acc i (rng i % (i + 1))) l

/-- The counting loop of Init: bump the bucket at each (0-based) decision;
an index outside the bucket vector is an out-of-bounds access. -/
def bumpAll : List ℕ → List ℤ → Option (List ℕ)
  | buckets, [] => some buckets
  | buckets, d :: ds =>
    if 0 ≤ d ∧ d.toNat < buckets.length then
      bumpAll (buckets.set d.toNat (buckets.getD d.toNat 0 + 1)) ds
    else none

/-- How Init can fail: an unchecked out-of-bounds vector access (undefined
behavior in the source), or the checked fatal size-mismatch exit. -/
inductive InitError where
  | outOfBounds : InitError
  | sizeMismatch : InitError
deriving DecidableEq

/-- Init: decrement the decisions, shuffle the person order, build the
cumulative offsets, validate them against the attribute row count
(exiting on mismatch), and count the people per discrete choice. -/
def DCMTable.Init (attribute_table_in : List (List ℝ))
    (attribute_dimensions_in : List ℤ) (decisions_table_in : List ℤ)
    (num_alternatives_table_in : List ℤ) (rng : ℕ → ℕ) :
    Except InitError DCMTable :=
  let decisions := decisions_table_in.map (fun d => d - 1)
  let n := decisions.length
  let shuffled := randomShuffle (List.range n) rng
  if n = 0 then Except.error InitError.outOfBounds
  else if num_alternatives_table_in.length < n then Except.error InitError.outOfBounds
  else
    let cumulative := (List.range n).map (cumRec num_alternatives_table_in)
    let last_count := num_alternatives_table_in.getD (n - 1) 0
    if cumulative.getD (n - 1) 0 + last_count ≠ (attribute_table_in.length : ℤ) then
      Except.error InitError.sizeMismatch
    else
      let maxAlt := num_alternatives_table_in.foldl (fun acc x => max acc x) 0
      match bumpAll (List.replicate maxAlt.toNat 0) decisions with
      | none => Except.error InitError.outOfBounds
      | some buckets =>
        Except.ok
          ⟨attribute_table_in, attribute_dimensions_in, decisions,
            num_alternatives_table_in, cumulative, shuffled, buckets⟩

/-- A concrete attribute table: five rows, one attribute each. -/
def attr0 : List (List ℝ) := [[1], [0], [1], [0], [2]]

/-- A concrete decisions table (1-based on input): person 0 chose
alternative 1, person 1 chose alternative 3. -/
def dec0 : List ℤ := [1, 3]

/-- A concrete num-alternatives table: person 0 has 2, person 1 has 3. -/
def alt0 : List ℤ := [2, 3]

/-- A fixed outcome of the random source. -/
def rng0 : ℕ → ℕ := fun _ => 0

/-- The table Init builds from the concrete inputs above. -/
def T0 : DCMTable :=
  ⟨attr0, [1], [0, 2], [2, 3], [0, 2], [1, 0], [1, 0, 1]⟩

/-- Entry of a mapped range list. -/
lemma getD_range_map {α : Type} (f : ℕ → α) (d : α) {p n : ℕ} (h : p < n) :
    ((List.range n).map f).getD p d = f p := by
  rw [List.getD_eq_getElem _ _ (by simpa using h), List.getElem_map, List.getElem_range]

/-- Entry of the decremented decisions list. -/
lemma getD_map_sub_one (l : List ℤ) {p : ℕ} (h : p < l.length) :
    (l.map (fun x => x - 1)).getD p 0 = l.getD p 0 - 1 := by
  rw [List.getD_eq_getElem _ _ (by simpa using h), List.getElem_map,
    List.getD_eq_getElem _ _ h]

/-- Dividing every entry divides the sum. -/
lemma sum_map_div (l : List ℝ) (c : ℝ) :
    (l.map (fun x => x / c)).sum = l.sum / c := by
  induction l with
  | nil => simp
  | cons a t ih => simp [ih, add_div]

/-- The seed is below a running maximum. -/
lemma le_foldl_max_init {α : Type} [LinearOrder α] (l : List α) (a : α) :
    a ≤ l.foldl max a := by
  induction l generalizing a with
  | nil => exact le_refl a
  | cons b t ih => exact le_trans (le_max_left a b) (ih (max a b))

/-- Every member is below a running maximum. -/
lemma le_foldl_max_of_mem {α : Type} [LinearOrder α] {l : List α} {x : α}
    (h : x ∈ l) (a : α) : x ≤ l.foldl max a := by
  induction l generalizing a with
  | nil => cases h
  | cons b t ih =>
    rcases List.mem_cons.mp h with rfl | hx
    · exact le_trans (le_max_right a x) (le_foldl_max_init t (max a x))
    · exact ih hx (max a b)

/-- A running maximum is the seed or a member. -/
lemma foldl_max_eq_init_or_mem {α : Type} [LinearOrder α] (l : List α) (a : α) :
    l.foldl max a = a ∨ l.foldl max a ∈ l := by
  induction l generalizing a with
  | nil => exact Or.inl rfl
  | cons b t ih =>
    rcases ih (max a b) with h | h
    · rcases max_choice a b with hab | hab
      · exact Or.inl (by rw [List.foldl_cons, h, hab])
      · exact Or.inr (by rw [List.foldl_cons, h, hab]; exact List.mem_cons_self b t)
    · exact Or.inr (List.mem_cons_of_mem b h)

/-- Setting one entry trades its old count for the new one. -/
lemma count_set_add {α : Type} [DecidableEq α] :
    ∀ (l : List α) (b x : α) (i : ℕ) (h : i < l.length),
      (l.set i b).count x + (if l[i] = x then 1 else 0)
        = l.count x + (if b = x then 1 else 0) := by
  intro l
  induction l with
  | nil => intro b x i h; cases h
  | cons a t ih =>
    intro b x i h
    match i with
    | 0 =>
      simp only [List.set_cons_zero, List.count_cons, List.getElem_cons_zero,
        beq_iff_eq]
      omega
    | i + 1 =>
      have ht : i < t.length := by simpa using h
      have := ih b x i ht
      simp only [List.set_cons_succ, List.count_cons, List.getElem_cons_succ,
        beq_iff_eq] at *
      omega

/-- Swapping two entries of a list is a permutation. -/
lemma listSwap_perm (l : List ℕ) {i j : ℕ} (hi : i < l.length) (hj : j < l.length) :
    (listSwap l i j).Perm l := by
  rw [List.perm_iff_count]
  intro x
  have hbj : l.getD j 0 = l[j] := List.getD_eq_getElem l 0 hj
  have hbi : l.getD i 0 = l[i] := List.getD_eq_getElem l 0 hi
  have h1 := count_set_add l (l[j]) x i hi
  have hj' : j < (l.set i (l[j])).length := by simpa using hj
  have h2 := count_set_add (l.set i (l[j])) (l[i]) x j hj'
  have hset : (l.set i (l[j]))[j] = l[j] := by
    rw [List.getElem_set]
    split
    · rfl
    · rfl
  rw [hset] at h2
  unfold listSwap
  rw [hbi, hbj]
  omega

/-- Any sequence of in-bounds swaps is a permutation. -/
lemma foldl_listSwap_perm (rng : ℕ → ℕ) :
    ∀ (ids : List ℕ) (l : List ℕ), (∀ i ∈ ids, i < l.length) →
      (ids.foldl (fun acc i => listSwap acc i (rng i % (i + 1))) l).Perm l := by
  intro ids
  induction ids with
  | nil => intro l _; exact List.Perm.refl l
  | cons i ids ih =>
    intro l hb
    have hi : i < l.length := hb i (List.mem_cons_self i ids)
    have hj : rng i % (i + 1) < l.length :=
      lt_of_le_of_lt (Nat.le_of_lt_succ (Nat.mod_lt _ (Nat.succ_pos i))) hi
    have hswap : (listSwap l i (rng i % (i + 1))).Perm l := listSwap_perm l hi hj
    have hlen : (listSwap l i (rng i % (i + 1))).length = l.length := hswap.length_eq
    have := ih (listSwap l i (rng i % (i + 1)))
      (fun k hk => hlen ▸ hb k (List.mem_cons_of_mem i hk))
    exact this.trans hswap

/-- The shuffled list is a permutation of the original for every outcome of
the random source. -/
lemma randomShuffle_perm (l : List ℕ) (rng : ℕ → ℕ) :
    (randomShuffle l rng).Perm l := by
  apply foldl_listSwap_perm
  intro i hi
  rcases List.mem_range'.mp hi with ⟨k, hk, rfl⟩
  omega

/-- bumpAll preserves the bucket vector length. -/
lemma bumpAll_length :
    ∀ {ds : List ℤ} {b b' : List ℕ}, bumpAll b ds = some b' → b'.length = b.length := by
  intro ds
  induction ds with
  | nil => intro b b' h; cases h; rfl
  | cons d ds ih =>
    intro b b' h
    unfold bumpAll at h
    split at h
    · rw [ih h, List.length_set]
    · cases h

/-- bumpAll adds to bucket k the number of occurrences of k. -/
lemma bumpAll_getD :
    ∀ {ds : List ℤ} {b b' : List ℕ}, bumpAll b ds = some b' →
      ∀ k : ℕ, k < b.length → b'.getD k 0 = b.getD k 0 + ds.count (k : ℤ) := by
  intro ds
  induction ds with
  | nil => intro b b' h k _; cases h; simp
  | cons d ds ih =>
    intro b b' h k hk
    unfold bumpAll at h
    split at h
    case isTrue hd =>
      have hk' : k < (b.set d.toNat (b.getD d.toNat 0 + 1)).length := by
        simpa using hk
      have hrec := ih h k (by simpa using hk)
      rw [hrec]
      have hcnt : List.count ((k : ℕ) : ℤ) (d :: ds)
          = List.count ((k : ℕ) : ℤ) ds + (if d = (k : ℤ) then 1 else 0) := by
        simp [List.count_cons]
      have hset : (b.set d.toNat (b.getD d.toNat 0 + 1)).getD k 0
          = if d.toNat = k then b.getD k 0 + 1 else b.getD k 0 := by
        rw [List.getD_eq_getElem _ _ hk', List.getElem_set]
        by_cases hc : d.toNat = k
        · rw [if_pos hc, if_pos hc, hc, List.getD_eq_getElem _ _ hk]
        · rw [if_neg hc, if_neg hc, List.getD_eq_getElem _ _ hk]
      by_cases hdk : d = (k : ℤ)
      · rw [if_pos (show d.toNat = k by omega)] at hset
        rw [if_pos hdk] at hcnt
        omega
      · rw [if_neg (show d.toNat ≠ k by omega)] at hset
        rw [if_neg hdk] at hcnt
        omega
    · cases h

/-- Bumping an in-range bucket adds one to the total. -/
lemma sum_set_succ :
    ∀ (b : List ℕ) (i : ℕ), i < b.length →
      (b.set i (b.getD i 0 + 1)).sum = b.sum + 1 := by
  intro b
  induction b with
  | nil => intro i h; cases h
  | cons a t ih =>
    intro i h
    match i with
    | 0 => simp; omega
    | i + 1 =>
      have ht : i < t.length := by simpa using h
      have := ih i ht
      simp only [List.set_cons_succ, List.getD_cons_succ, List.sum_cons] at *
      omega

/-- bumpAll adds one per person to the bucket total. -/
lemma bumpAll_sum :
    ∀ {ds : List ℤ} {b b' : List ℕ}, bumpAll b ds = some b' →
      b'.sum = b.sum + ds.length := by
  intro ds
  induction ds with
  | nil => intro b b' h; cases h; simp
  | cons d ds ih =>
    intro b b' h
    unfold bumpAll at h
    split at h
    case isTrue hd =>
      have := ih h
      rw [this, sum_set_succ b d.toNat hd.2, List.length_cons]
      omega
    · cases h

/-- bumpAll succeeds when every decision index is in range. -/
lemma bumpAll_isSome :
    ∀ (ds : List ℤ) (b : List ℕ), (∀ d ∈ ds, 0 ≤ d ∧ d.toNat < b.length) →
      ∃ b', bumpAll b ds = some b' := by
  intro ds
  induction ds with
  | nil => intro b _; exact ⟨b, rfl⟩
  | cons d ds ih =>
    intro b hb
    have hd := hb d (List.mem_cons_self d ds)
    obtain ⟨b', hb'⟩ := ih (b.set d.toNat (b.getD d.toNat 0 + 1))
      (fun x hx => by
        have := hb x (List.mem_cons_of_mem d hx)
        simpa using this)
    exact ⟨b', by unfold bumpAll; rw [if_pos hd]; exact hb'⟩

/-- The choice probability vector has one entry per dot product. -/
lemma length_dcmScores (t : DCMTable) (p : ℕ) (beta : List ℝ) :
    (t.dcmScores p beta).length = (t.num_discrete_choices p).toNat := by
  simp [DCMTable.dcmScores]

/-- The weight vector has one entry per dot product. -/
lemma length_dcmWeights (t : DCMTable) (p : ℕ) (beta : List ℝ) :
    (t.dcmWeights p beta).length = (t.num_discrete_choices p).toNat := by
  simp [DCMTable.dcmWeights, DCMTable.dcmScores]

/-- The probability vector has one entry per alternative. -/
lemma length_choice_probabilities (t : DCMTable) (p : ℕ) (beta : List ℝ) :
    (t.choice_probabilities p beta).length = (t.num_discrete_choices p).toNat := by
  simp [DCMTable.choice_probabilities, DCMTable.dcmWeights, DCMTable.dcmScores]

/-- What a successful Init says about the state it builds. -/
lemma Init_ok_inversion {a : List (List ℝ)} {dims d na : List ℤ} {rng : ℕ → ℕ}
    {t : DCMTable} (h : DCMTable.Init a dims d na rng = Except.ok t) :
    d.length ≠ 0 ∧ d.length ≤ na.length ∧
    t.attribute_table_ = a ∧
    t.attribute_dimensions_ = dims ∧
    t.decisions_table_ = d.map (fun x => x - 1) ∧
    t.num_alternatives_table_ = na ∧
    t.cumulative_num_discrete_choices_ = (List.range d.length).map (cumRec na) ∧
    t.shuffled_indices_for_person_ = randomShuffle (List.range d.length) rng ∧
    cumRec na (d.length - 1) + na.getD (d.length - 1) 0 = (a.length : ℤ) ∧
    bumpAll (List.replicate ((na.foldl (fun acc x => max acc x) 0).toNat) 0)
      (d.map (fun x => x - 1)) = some t.num_people_per_discrete_choice_ := by
  simp only [DCMTable.Init, List.length_map] at h
  split at h
  · cases h
  case isFalse h0 =>
  split at h
  · cases h
  case isFalse h1 =>
  split at h
  · cases h
  case isFalse h2 =>
  split at h
  · cases h
  case _ buckets heq =>
  cases h
  refine ⟨h0, by omega, rfl, rfl, rfl, rfl, rfl, rfl, ?_, heq⟩
  have hlt : d.length - 1 < d.length := by omega
  rw [getD_range_map (cumRec na) (0 : ℤ) hlt] at h2
  omega

/-- Claim C3: after a successful Init the cumulative offsets start at 0,
satisfy the prefix-sum recurrence against the per-person alternative
counts, and the final offset plus the last count equals the attribute
table row count. -/
theorem init_cumulative_offsets {a : List (List ℝ)} {dims d na : List ℤ}
    {rng : ℕ → ℕ} {t : DCMTable}
    (h : DCMTable.Init a dims d na rng = Except.ok t) :
    t.cumulative_num_discrete_choices_.getD 0 0 = 0 ∧
    (∀ p : ℕ, p + 1 < t.num_people →
      t.cumulative_num_discrete_choices_.getD p 0 + t.num_discrete_choices p
        = t.cumulative_num_discrete_choices_.getD (p + 1) 0) ∧
    t.cumulative_num_discrete_choices_.getD (t.num_people - 1) 0
      + t.num_discrete_choices (t.num_people - 1) = (a.length : ℤ) := by
  obtain ⟨h0, -, -, -, -, hna, hcum, -, hval, -⟩ := Init_ok_inversion h
  have hnp : t.num_people = d.length := by
    rw [DCMTable.num_people, hcum]; simp
  refine ⟨?_, ?_, ?_⟩
  · rw [hcum, getD_range_map _ _ (by omega : 0 < d.length)]
    rfl
  · intro p hp
    rw [hnp] at hp
    rw [hcum, DCMTable.num_discrete_choices, hna,
      getD_range_map _ _ (by omega : p < d.length),
      getD_range_map _ _ (by omega : p + 1 < d.length)]
    rfl
  · rw [hnp, hcum, DCMTable.num_discrete_choices, hna,
      getD_range_map _ _ (by omega : d.length - 1 < d.length)]
    exact hval

/-- Witness for C3 at the concrete tables. -/
theorem init_cumulative_offsets_witness :
    DCMTable.Init attr0 [1] dec0 alt0 rng0 = Except.ok T0 ∧
    (T0.cumulative_num_discrete_choices_.getD 0 0 = 0 ∧
     (∀ p : ℕ, p + 1 < T0.num_people →
       T0.cumulative_num_discrete_choices_.getD p 0 + T0.num_discrete_choices p
         = T0.cumulative_num_discrete_choices_.getD (p + 1) 0) ∧
     T0.cumulative_num_discrete_choices_.getD (T0.num_people - 1) 0
       + T0.num_discrete_choices (T0.num_people - 1) = (attr0.length : ℤ)) :=
  ⟨rfl, init_cumulative_offsets
    (show DCMTable.Init attr0 [1] dec0 alt0 rng0 = Except.ok T0 from rfl)⟩

/-- Claim C5: Init decrements every decisions entry by one in place, and the
resulting zero-based chosen index is in range whenever the one-based input
was in range. -/
theorem init_decrements_decisions {a : List (List ℝ)} {dims d na : List ℤ}
    {rng : ℕ → ℕ} {t : DCMTable}
    (h : DCMTable.Init a dims d na rng = Except.ok t)
    (p : ℕ) (hp : p < d.length) :
    t.get_discrete_choice_index p = d.getD p 0 - 1 ∧
    (1 ≤ d.getD p 0 → d.getD p 0 ≤ t.num_discrete_choices p →
      0 ≤ t.get_discrete_choice_index p ∧
        t.get_discrete_choice_index p < t.num_discrete_choices p) := by
  obtain ⟨-, -, -, -, hdec, -, -, -, -, -⟩ := Init_ok_inversion h
  have hidx : t.get_discrete_choice_index p = d.getD p 0 - 1 := by
    rw [DCMTable.get_discrete_choice_index, hdec, getD_map_sub_one d hp]
  refine ⟨hidx, fun h1 h2 => ?_⟩
  omega

/-- Witness for C5 at the concrete tables. -/
theorem init_decrements_decisions_witness :
    DCMTable.Init attr0 [1] dec0 alt0 rng0 = Except.ok T0 ∧ 1 < dec0.length ∧
    (T0.get_discrete_choice_index 1 = dec0.getD 1 0 - 1 ∧
     (1 ≤ dec0.getD 1 0 → dec0.getD 1 0 ≤ T0.num_discrete_choices 1 →
       0 ≤ T0.get_discrete_choice_index 1 ∧
         T0.get_discrete_choice_index 1 < T0.num_discrete_choices 1)) :=
  ⟨rfl, by decide,
    init_decrements_decisions
      (show DCMTable.Init attr0 [1] dec0 alt0 rng0 = Except.ok T0 from rfl)
      1 (by decide)⟩

/-- Claim C6: the choice probability of a person is the entry of the choice
probability vector at the stored chosen index. -/
theorem choice_probability_at_chosen_index (t : DCMTable) (p : ℕ) (beta : List ℝ)
    (h : (t.get_discrete_choice_index p).toNat
      < (t.choice_probabilities p beta).length) :
    t.choice_probability p beta
      = (t.choice_probabilities p beta).get
          ⟨(t.get_discrete_choice_index p).toNat, h⟩ := by
  rw [DCMTable.choice_probability, List.getD_eq_getElem _ _ h]
  rfl

/-- Witness for C6 at the concrete tables. -/
theorem choice_probability_at_chosen_index_witness :
    ∃ h : (T0.get_discrete_choice_index 0).toNat
        < (T0.choice_probabilities 0 [1]).length,
      T0.choice_probability 0 [1]
        = (T0.choice_probabilities 0 [1]).get
            ⟨(T0.get_discrete_choice_index 0).toNat, h⟩ :=
  ⟨by rw [length_choice_probabilities]; decide,
   choice_probability_at_chosen_index T0 0 [1] _⟩

/-- Claim C10: with an empty decisions table, Init performs out-of-bounds
accesses (writing offset 0, reading the last alternative count) rather
than reaching its checked size-mismatch error. -/
theorem init_empty_decisions_out_of_bounds (a : List (List ℝ)) (dims na : List ℤ)
    (rng : ℕ → ℕ) :
    DCMTable.Init a dims [] na rng = Except.error InitError.outOfBounds ∧
    DCMTable.Init a dims [] na rng ≠ Except.error InitError.sizeMismatch ∧
    ∀ t : DCMTable, DCMTable.Init a dims [] na rng ≠ Except.ok t := by
  refine ⟨rfl, ?_, ?_⟩
  · intro hc
    exact absurd (Except.error.inj hc) (by decide)
  · intro t hc
    exact Except.noConfusion hc

/-- Claim C2: for a person with at least one alternative the choice
probability vector has one entry per alternative, every entry is
non-negative and the entries sum to one (exactly, in real arithmetic,
hence within the stated tolerance). -/
theorem choice_probabilities_distribution (t : DCMTable) (p : ℕ) (beta : List ℝ)
    (h : 0 < (t.num_discrete_choices p).toNat) :
    (t.choice_probabilities p beta).length = (t.num_discrete_choices p).toNat ∧
    (∀ x ∈ t.choice_probabilities p beta, 0 ≤ x) ∧
    (t.choice_probabilities p beta).sum = 1 ∧
    |(t.choice_probabilities p beta).sum - 1| ≤ 1e-9 := by
  have hwpos : ∀ x ∈ t.dcmWeights p beta, 0 < x := by
    intro x hx
    rw [DCMTable.dcmWeights] at hx
    obtain ⟨s, -, rfl⟩ := List.mem_map.mp hx
    exact Real.exp_pos _
  have hne : t.dcmWeights p beta ≠ [] := by
    intro hnil
    have hl := length_dcmWeights t p beta
    rw [hnil] at hl
    simp at hl
    omega
  have hZ : 0 < (t.dcmWeights p beta).sum := List.sum_pos _ hwpos hne
  have hsum : (t.choice_probabilities p beta).sum = 1 := by
    rw [DCMTable.choice_probabilities, sum_map_div, div_self (ne_of_gt hZ)]
  refine ⟨length_choice_probabilities t p beta, ?_, hsum, by rw [hsum]; norm_num⟩
  intro x hx
  rw [DCMTable.choice_probabilities] at hx
  obtain ⟨w, hw, rfl⟩ := List.mem_map.mp hx
  exact div_nonneg (le_of_lt (hwpos w hw)) (le_of_lt hZ)

/-- Witness for C2 at the concrete tables. -/
theorem choice_probabilities_distribution_witness :
    0 < (T0.num_discrete_choices 0).toNat ∧
    ((T0.choice_probabilities 0 [1]).length = (T0.num_discrete_choices 0).toNat ∧
     (∀ x ∈ T0.choice_probabilities 0 [1], 0 ≤ x) ∧
     (T0.choice_probabilities 0 [1]).sum = 1 ∧
     |(T0.choice_probabilities 0 [1]).sum - 1| ≤ 1e-9) :=
  ⟨by decide, choice_probabilities_distribution T0 0 [1] (by decide)⟩

/-- Claim C8: each unnormalized weight is the exponential of the score minus
the running maximum plus one; the exponent argument is at most one, every
score is bounded by the running maximum, and (for scores reachable by
finite doubles) the running maximum is itself one of the scores. -/
theorem weights_shifted_exponentials (t : DCMTable) (p : ℕ) (beta : List ℝ) (a : ℕ)
    (ha : a < (t.dcmScores p beta).length)
    (hfin : ∀ s ∈ t.dcmScores p beta, -dblMax ≤ s) :
    (t.dcmWeights p beta).getD a 0
        = Real.exp ((t.dcmScores p beta).getD a 0 - t.dcmMaxDot p beta + 1) ∧
    (t.dcmScores p beta).getD a 0 - t.dcmMaxDot p beta + 1 ≤ 1 ∧
    (∀ s ∈ t.dcmScores p beta, s ≤ t.dcmMaxDot p beta) ∧
    t.dcmMaxDot p beta ∈ t.dcmScores p beta := by
  have ha' : a < (t.dcmWeights p beta).length := by
    rw [length_dcmWeights]
    rw [length_dcmScores] at ha
    exact ha
  have hmem : ∀ s ∈ t.dcmScores p beta, s ≤ t.dcmMaxDot p beta := fun s hs =>
    le_foldl_max_of_mem hs (-dblMax)
  have hsa : (t.dcmScores p beta).getD a 0 = (t.dcmScores p beta)[a] :=
    List.getD_eq_getElem _ _ ha
  have h1 : (t.dcmWeights p beta).getD a 0
      = Real.exp ((t.dcmScores p beta).getD a 0 - t.dcmMaxDot p beta + 1) := by
    rw [List.getD_eq_getElem _ _ ha', hsa]
    simp only [DCMTable.dcmWeights, List.getElem_map]
  have hbound : (t.dcmScores p beta).getD a 0 - t.dcmMaxDot p beta + 1 ≤ 1 := by
    have := hmem _ (hsa ▸ List.getElem_mem ha)
    rw [hsa]
    rw [hsa] at this
    linarith
  have hmax : t.dcmMaxDot p beta ∈ t.dcmScores p beta := by
    rcases foldl_max_eq_init_or_mem (t.dcmScores p beta) (-dblMax) with hco | hco
    · have hs0 : (t.dcmScores p beta)[a] ∈ t.dcmScores p beta := List.getElem_mem ha
      have hle := hmem _ hs0
      have hge := hfin _ hs0
      have hmd : t.dcmMaxDot p beta = -dblMax := hco
      have : (t.dcmScores p beta)[a] = t.dcmMaxDot p beta := by
        rw [hmd]
        exact le_antisymm (hmd ▸ hle) hge
      exact this ▸ hs0
    · exact hco
  exact ⟨h1, hbound, hmem, hmax⟩

/-- Witness for C8 at the concrete tables, person 1, first alternative. -/
theorem weights_shifted_exponentials_witness :
    0 < (T0.dcmScores 1 [1]).length ∧
    (∀ s ∈ T0.dcmScores 1 [1], -dblMax ≤ s) ∧
    ((T0.dcmWeights 1 [1]).getD 0 0
        = Real.exp ((T0.dcmScores 1 [1]).getD 0 0 - T0.dcmMaxDot 1 [1] + 1) ∧
     (T0.dcmScores 1 [1]).getD 0 0 - T0.dcmMaxDot 1 [1] + 1 ≤ 1 ∧
     (∀ s ∈ T0.dcmScores 1 [1], s ≤ T0.dcmMaxDot 1 [1]) ∧
     T0.dcmMaxDot 1 [1] ∈ T0.dcmScores 1 [1]) := by
  have hlen : 0 < (T0.dcmScores 1 [1]).length := by
    rw [length_dcmScores]
    decide
  have hscores : T0.dcmScores 1 [1] = [dot [1] [1], dot [1] [0], dot [1] [2]] := rfl
  have hfin : ∀ s ∈ T0.dcmScores 1 [1], -dblMax ≤ s := by
    intro s hs
    rw [hscores] at hs
    simp only [List.mem_cons, List.not_mem_nil, or_false] at hs
    rcases hs with rfl | rfl | rfl <;> norm_num [dot, dblMax]
  exact ⟨hlen, hfin, weights_shifted_exponentials T0 1 [1] 0 hlen hfin⟩

/-- Claim C9: after a successful Init the shuffled person order is a
permutation of 0 .. numPeople-1, for every outcome of the random source:
as a list it permutes the range, and through the accessor its values are
exactly the person indices. -/
theorem init_shuffled_permutation {a : List (List ℝ)} {dims d na : List ℤ}
    {rng : ℕ → ℕ} {t : DCMTable}
    (h : DCMTable.Init a dims d na rng = Except.ok t) :
    t.shuffled_indices_for_person_.Perm (List.range t.num_people) ∧
    (∀ x : ℕ, x ∈ t.shuffled_indices_for_person_ ↔ x < t.num_people) ∧
    (∀ x : ℕ, (∃ i, i < t.num_people ∧ t.shuffled_indices_for_person i = x)
      ↔ x < t.num_people) := by
  obtain ⟨-, -, -, -, -, -, hcum, hshuf, -, -⟩ := Init_ok_inversion h
  have hnp : t.num_people = d.length := by
    rw [DCMTable.num_people, hcum]; simp
  have hperm : t.shuffled_indices_for_person_.Perm (List.range t.num_people) := by
    rw [hshuf, hnp]
    exact randomShuffle_perm _ rng
  have hmem : ∀ x : ℕ, x ∈ t.shuffled_indices_for_person_ ↔ x < t.num_people :=
    fun x => by rw [hperm.mem_iff, List.mem_range]
  have hlenl : t.shuffled_indices_for_person_.length = t.num_people := by
    have := hperm.length_eq
    simpa using this
  refine ⟨hperm, hmem, fun x => ?_⟩
  constructor
  · rintro ⟨i, hi, rfl⟩
    rw [← hmem, DCMTable.shuffled_indices_for_person,
      List.getD_eq_getElem _ _ (by omega : i < t.shuffled_indices_for_person_.length)]
    exact List.getElem_mem _
  · intro hx
    obtain ⟨i, hilen, hig⟩ := List.mem_iff_getElem.mp ((hmem x).mpr hx)
    exact ⟨i, by omega,
      by rw [DCMTable.shuffled_indices_for_person, List.getD_eq_getElem _ _ hilen, hig]⟩

/-- Witness for C9 at the concrete tables. -/
theorem init_shuffled_permutation_witness :
    DCMTable.Init attr0 [1] dec0 alt0 rng0 = Except.ok T0 ∧
    (T0.shuffled_indices_for_person_.Perm (List.range T0.num_people) ∧
     (∀ x : ℕ, x ∈ T0.shuffled_indices_for_person_ ↔ x < T0.num_people) ∧
     (∀ x : ℕ, (∃ i, i < T0.num_people ∧ T0.shuffled_indices_for_person i = x)
       ↔ x < T0.num_people)) :=
  ⟨rfl, init_shuffled_permutation
    (show DCMTable.Init attr0 [1] dec0 alt0 rng0 = Except.ok T0 from rfl)⟩

/-- Claim C4: when the last cumulative offset plus the last alternative
count differs from the attribute row count, Init stops with the fatal
size-mismatch error and yields no table; when they agree (on otherwise
well-formed input) Init completes with a table. -/
theorem init_validation_fail_fast (a : List (List ℝ)) (dims d na : List ℤ)
    (rng : ℕ → ℕ)
    (hne : d.length ≠ 0) (hlen : d.length ≤ na.length)
    (hv : ∀ i : ℕ, i < d.length → 1 ≤ d.getD i 0 ∧ d.getD i 0 ≤ na.getD i 0) :
    (cumRec na (d.length - 1) + na.getD (d.length - 1) 0 ≠ (a.length : ℤ) →
      DCMTable.Init a dims d na rng = Except.error InitError.sizeMismatch ∧
      ∀ t : DCMTable, DCMTable.Init a dims d na rng ≠ Except.ok t) ∧
    (cumRec na (d.length - 1) + na.getD (d.length - 1) 0 = (a.length : ℤ) →
      ∃ t : DCMTable, DCMTable.Init a dims d na rng = Except.ok t) := by
  have hgetD : ((List.range d.length).map (cumRec na)).getD (d.length - 1) 0
      = cumRec na (d.length - 1) :=
    getD_range_map _ _ (by omega)
  constructor
  · intro hmm
    have herr : DCMTable.Init a dims d na rng = Except.error InitError.sizeMismatch := by
      simp only [DCMTable.Init, List.length_map]
      rw [if_neg hne, if_neg (by omega : ¬ na.length < d.length), hgetD, if_pos hmm]
    exact ⟨herr, fun t ht => by rw [herr] at ht; exact Except.noConfusion ht⟩
  · intro hm
    have hbump : ∀ x ∈ d.map (fun v => v - 1),
        0 ≤ x ∧ x.toNat
          < (List.replicate ((na.foldl (fun acc y => max acc y) 0).toNat) (0 : ℕ)).length := by
      intro x hx
      obtain ⟨v, hv', rfl⟩ := List.mem_map.mp hx
      obtain ⟨i, hi, hvi⟩ := List.mem_iff_getElem.mp hv'
      have hvd : d.getD i 0 = v := by rw [List.getD_eq_getElem _ _ hi, hvi]
      have hvv := hv i hi
      have hmax : na.getD i 0 ≤ na.foldl (fun acc y => max acc y) 0 := by
        have hina : i < na.length := by omega
        have : na.getD i 0 ∈ na := by
          rw [List.getD_eq_getElem _ _ hina]
          exact List.getElem_mem hina
        exact le_foldl_max_of_mem this 0
      rw [List.length_replicate]
      omega
    obtain ⟨b', hb'⟩ := bumpAll_isSome (d.map fun v => v - 1) _ hbump
    refine ⟨⟨a, dims, d.map (fun v => v - 1), na,
      (List.range d.length).map (cumRec na),
      randomShuffle (List.range d.length) rng, b'⟩, ?_⟩
    simp only [DCMTable.Init, List.length_map]
    rw [if_neg hne, if_neg (by omega : ¬ na.length < d.length), hgetD,
      if_neg (not_not.mpr hm), hb']

/-- A concrete attribute table with too few rows for alt0. -/
def attrBad : List (List ℝ) := [[1], [0], [1], [0]]

/-- Witness for C4 at concrete tables whose row counts disagree. -/
theorem init_validation_fail_fast_witness :
    dec0.length ≠ 0 ∧ dec0.length ≤ alt0.length ∧
    (∀ i : ℕ, i < dec0.length → 1 ≤ dec0.getD i 0 ∧ dec0.getD i 0 ≤ alt0.getD i 0) ∧
    ((cumRec alt0 (dec0.length - 1) + alt0.getD (dec0.length - 1) 0
        ≠ (attrBad.length : ℤ) →
      DCMTable.Init attrBad [1] dec0 alt0 rng0 = Except.error InitError.sizeMismatch ∧
      ∀ t : DCMTable, DCMTable.Init attrBad [1] dec0 alt0 rng0 ≠ Except.ok t) ∧
     (cumRec alt0 (dec0.length - 1) + alt0.getD (dec0.length - 1) 0
        = (attrBad.length : ℤ) →
      ∃ t : DCMTable, DCMTable.Init attrBad [1] dec0 alt0 rng0 = Except.ok t)) :=
  ⟨by decide, by decide, by decide,
   init_validation_fail_fast attrBad [1] dec0 alt0 rng0
     (by decide) (by decide) (by decide)⟩

/-- Claim C7 (as stated over valid input): the bucket vector has
max-over-people alternatives many buckets, bucket k counts the people whose
zero-based chosen index is k, and the buckets sum to the number of people. -/
theorem init_per_alternative_count {a : List (List ℝ)} {dims d na : List ℤ}
    {rng : ℕ → ℕ} {t : DCMTable}
    (h : DCMTable.Init a dims d na rng = Except.ok t)
    (hlen : na.length = d.length)
    (hv : ∀ i : ℕ, i < d.length → 1 ≤ d.getD i 0 ∧ d.getD i 0 ≤ na.getD i 0) :
    t.num_people_per_discrete_choice_.length
        = (na.foldl (fun acc x => max acc x) 0).toNat ∧
    (∃ j : ℕ, j < d.length ∧
      (na.getD j 0).toNat = t.num_people_per_discrete_choice_.length) ∧
    (∀ i : ℕ, i < d.length →
      (na.getD i 0).toNat ≤ t.num_people_per_discrete_choice_.length) ∧
    (∀ k : ℕ, k < t.num_people_per_discrete_choice_.length →
      t.num_people_per_discrete_choice_.getD k 0
        = t.decisions_table_.count ((k : ℕ) : ℤ)) ∧
    t.num_people_per_discrete_choice_.sum = t.num_people := by
  obtain ⟨h0, -, -, -, hdec, -, hcum, -, -, heq⟩ := Init_ok_inversion h
  have hblen : t.num_people_per_discrete_choice_.length
      = (na.foldl (fun acc x => max acc x) 0).toNat := by
    rw [bumpAll_length heq, List.length_replicate]
  have hmemle : ∀ i : ℕ, i < d.length →
      na.getD i 0 ≤ na.foldl (fun acc x => max acc x) 0 := by
    intro i hi
    have hina : i < na.length := by omega
    have : na.getD i 0 ∈ na := by
      rw [List.getD_eq_getElem _ _ hina]
      exact List.getElem_mem hina
    exact le_foldl_max_of_mem this 0
  refine ⟨hblen, ?_, ?_, ?_, ?_⟩
  · rcases foldl_max_eq_init_or_mem na (0 : ℤ) with hco | hco
    · exfalso
      have hco' : na.foldl (fun acc x => max acc x) 0 = 0 := hco
      have h00 := hv 0 (by omega)
      have := hmemle 0 (by omega)
      omega
    · obtain ⟨j, hj, hjv⟩ := List.mem_iff_getElem.mp hco
      refine ⟨j, by omega, ?_⟩
      rw [hblen, List.getD_eq_getElem _ _ hj, hjv]
  · intro i hi
    have := hmemle i hi
    rw [hblen]
    omega
  · intro k hk
    rw [hblen] at hk
    have hrep : k
        < (List.replicate ((na.foldl (fun acc x => max acc x) 0).toNat) (0 : ℕ)).length := by
      rw [List.length_replicate]
      exact hk
    have hbk := bumpAll_getD heq k hrep
    rw [hdec, hbk, List.getD_eq_getElem _ _ hrep, List.getElem_replicate]
    omega
  · have hs := bumpAll_sum heq
    simp only [List.sum_replicate, smul_eq_mul, mul_zero, List.length_map,
      zero_add] at hs
    rw [hs, DCMTable.num_people, hcum]
    simp

/-- Witness for C7 at the concrete tables. -/
theorem init_per_alternative_count_witness :
    DCMTable.Init attr0 [1] dec0 alt0 rng0 = Except.ok T0 ∧
    alt0.length = dec0.length ∧
    (∀ i : ℕ, i < dec0.length → 1 ≤ dec0.getD i 0 ∧ dec0.getD i 0 ≤ alt0.getD i 0) ∧
    (T0.num_people_per_discrete_choice_.length
        = (alt0.foldl (fun acc x => max acc x) 0).toNat ∧
     (∃ j : ℕ, j < dec0.length ∧
       (alt0.getD j 0).toNat = T0.num_people_per_discrete_choice_.length) ∧
     (∀ i : ℕ, i < dec0.length →
       (alt0.getD i 0).toNat ≤ T0.num_people_per_discrete_choice_.length) ∧
     (∀ k : ℕ, k < T0.num_people_per_discrete_choice_.length →
       T0.num_people_per_discrete_choice_.getD k 0
         = T0.decisions_table_.count ((k : ℕ) : ℤ)) ∧
     T0.num_people_per_discrete_choice_.sum = T0.num_people) :=
  ⟨rfl, by decide, by decide,
   init_per_alternative_count
     (show DCMTable.Init attr0 [1] dec0 alt0 rng0 = Except.ok T0 from rfl)
     (by decide) (by decide)⟩

/-- Claim C1 as amended: after a successful Init, total_num_discrete_choices
is the bucket count of the per-alternative count vector, i.e. the maximum
entry of the num-alternatives table (clamped at zero), not the attribute
row count. -/
theorem total_num_discrete_choices_bucket_count {a : List (List ℝ)}
    {dims d na : List ℤ} {rng : ℕ → ℕ} {t : DCMTable}
    (h : DCMTable.Init a dims d na rng = Except.ok t) :
    t.total_num_discrete_choices
        = (na.foldl (fun acc x => max acc x) 0).toNat ∧
    t.total_num_discrete_choices = t.num_people_per_discrete_choice_.length := by
  obtain ⟨-, -, -, -, -, -, -, -, -, heq⟩ := Init_ok_inversion h
  refine ⟨?_, rfl⟩
  rw [DCMTable.total_num_discrete_choices, bumpAll_length heq, List.length_replicate]

/-- Witness for the amended C1 at the concrete tables. -/
theorem total_num_discrete_choices_bucket_count_witness :
    DCMTable.Init attr0 [1] dec0 alt0 rng0 = Except.ok T0 ∧
    (T0.total_num_discrete_choices
        = (alt0.foldl (fun acc x => max acc x) 0).toNat ∧
     T0.total_num_discrete_choices = T0.num_people_per_discrete_choice_.length) :=
  ⟨rfl, total_num_discrete_choices_bucket_count
    (show DCMTable.Init attr0 [1] dec0 alt0 rng0 = Except.ok T0 from rfl)⟩

/-- Counterexample to C1 as stated: on concrete tables with per-person
alternative counts 2 and 3 (so 5 attribute rows), Init succeeds and
total_num_discrete_choices returns 3, not the attribute row count 5. -/
theorem total_num_discrete_choices_counterexample :
    ¬ ∀ t : DCMTable, DCMTable.Init attr0 [1] dec0 alt0 rng0 = Except.ok t →
        t.total_num_discrete_choices = attr0.length := by
  intro hall
  exact absurd (hall T0 rfl) (by decide)

end MixedLogitDCM
